import Mathlib

/-!
Verification of the project-key allocation and Markdown-to-Wiki text
conversion logic of `dump_gitlab_json.py`.

The embedding works over `List Char` as the model of Python strings
(restricted to the ASCII behaviour of the character-class predicates, which
is all the source exercises).  `re.sub` is modelled by a fuel-driven
left-to-right scanner `scanSub` parameterised by a matcher that, at a given
position, either fails or returns the replacement text together with the
unconsumed remainder; replacements are not rescanned, matching `re.sub`.
Python's `str.splitlines` is modelled for the terminators `\n`, `\r`,
`\r\n` and the other single-character line breaks Python recognises.
-/

/-- ASCII model of Python's `str.islower`: at least one cased (here: ASCII
alphabetic) character, and no cased character is uppercase. -/
def pyIslower (cs : List Char) : Bool :=
  cs.any Char.isAlpha && cs.all (fun c => !c.isAlpha || c.isLower)

/-- Helper for `pyTitle`: `prevAlpha` records whether the previous character
was alphabetic (i.e. whether we are inside a word). -/
def pyTitleAux (prevAlpha : Bool) : List Char → List Char
  | [] => []
  | c :: rest =>
    if c.isAlpha then
      (if prevAlpha then c.toLower else c.toUpper) :: pyTitleAux true rest
    else
      c :: pyTitleAux false rest

/-- ASCII model of Python's `str.title`: uppercase the first letter of every
maximal alphabetic run, lowercase the other letters, leave the rest alone. -/
def pyTitle (cs : List Char) : List Char :=
  pyTitleAux false cs

/-- Key derivation of `main` (lines 236-241 of `dump_gitlab_json.py`):
title-case an all-lowercase name, keep the uppercase letters
(`re.sub(r'[^A-Z]', '', key)`), and if fewer than two remain fall back to
the first two letters of the original name, uppercased. -/
def deriveKey (name : List Char) : List Char :=
  let k0 := if pyIslower name then pyTitle name else name
  let k1 := k0.filter Char.isUpper
  if k1.length < 2 then
    ((name.filter Char.isAlpha).take 2).map Char.toUpper
  else
    k1

/-- The collision loop of `main` (lines 242-249), modelled exactly: the
state carries `added` and `suffix` even though the source never updates
`added`, so the `else` branch (replace the last character by
`chr(suffix)`) is unreachable when the loop is entered with
`added = false`, and every collision appends the letter `A`.  The fuel
argument bounds the iteration count; `registry.length + 1` iterations
always suffice to leave the registry (see `resolveLoop_not_mem`). -/
def resolveLoop (registry : List (List Char)) : Nat → Bool → Nat → List Char → List Char
  | 0, _, _, key => key
  | fuel + 1, added, suffix, key =>
    if key ∈ registry then
      if added then
        resolveLoop registry fuel added (suffix + 1) (key.dropLast ++ [Char.ofNat (suffix + 1)])
      else
        resolveLoop registry fuel added suffix (key ++ ['A'])
    else
      key

/-- One allocation step: derive the candidate key, resolve collisions
against the registry (`key_set` in the source, a Python set modelled as a
list with membership), insert the final key, and return it together with
the grown registry.  `added` starts `False` and `suffix` starts `65`, as
on lines 242-243 of the source. -/
def allocate (registry : List (List Char)) (name : List Char) : List Char × List (List Char) :=
  let key := resolveLoop registry (registry.length + 1) false 65 (deriveKey name)
  (key, key :: registry)

/-- Allocate a sequence of project names against one registry, returning
the issued keys in order and the final registry. -/
def allocateAll (registry : List (List Char)) : List (List Char) → List (List Char) × List (List Char)
  | [] => ([], registry)
  | n :: ns =>
    let p := allocate registry n
    let q := allocateAll p.2 ns
    (p.1 :: q.1, q.2)

/-- Generic left-to-right substitution scanner modelling `re.sub` (and
`str.replace`): at each position try the matcher; on a match emit the
replacement and continue after the consumed text (the replacement is not
rescanned), otherwise keep one character and move on.  All matchers used
below consume at least one character, so fuel `cs.length + 1` never runs
out before the input does. -/
def scanSub (t : List Char → Option (List Char × List Char)) : Nat → List Char → List Char
  | 0, cs => cs
  | fuel + 1, cs =>
    match t cs with
    | some p => p.1 ++ scanSub t fuel p.2
    | none =>
      match cs with
      | [] => []
      | c :: rest => c :: scanSub t fuel rest

/-- Apply a substitution matcher over a whole line with sufficient fuel. -/
def applySub (t : List Char → Option (List Char × List Char)) (cs : List Char) : List Char :=
  scanSub t (cs.length + 1) cs

/-- True if the matcher fires at some position (suffix) of the line. -/
def hasMatchB (t : List Char → Option (List Char × List Char)) : List Char → Bool
  | [] => (t []).isSome
  | c :: rest => (t (c :: rest)).isSome || hasMatchB t rest

/-- Three backticks, the fence delimiter of the code-block patterns. -/
def fence : List Char :=
  "```".data

/-- Matcher for `re.sub(r'```([a-z]+)$', r'{code:\1}', line)`: because of
the `$` anchor a match at a position requires the whole remainder to be
the fence followed by a nonempty run of lowercase letters. -/
def tryCodeOpen (cs : List Char) : Option (List Char × List Char) :=
  if cs.take 3 = fence then
    let lang := cs.drop 3
    if !lang.isEmpty && lang.all Char.isLower then
      some ("\x7bcode:".data ++ lang ++ ['\x7d'], [])
    else
      none
  else
    none

/-- Matcher for `re.sub(r'```$', r'{code}', line)`: the remainder must be
exactly the fence. -/
def tryCodeClose (cs : List Char) : Option (List Char × List Char) :=
  if cs = fence then some ("\x7bcode\x7d".data, []) else none

/-- Matcher giving `str.replace(pat, rep)` semantics through `scanSub`
(left-to-right, non-overlapping). -/
def tryReplace (pat rep : List Char) (cs : List Char) : Option (List Char × List Char) :=
  if cs.take pat.length = pat then some (rep, cs.drop pat.length) else none

/-- Matcher for `re.sub(r'\[([^\]]+)\]\(([^\)]+)\)', r'[\1|\2]', line)`:
a label run of non-`]` characters, then `](`, then a target run of
non-`)` characters, then `)`. -/
def tryLink (cs : List Char) : Option (List Char × List Char) :=
  match cs with
  | '[' :: rest =>
    let label := rest.takeWhile (fun c => c ≠ ']')
    if label.isEmpty then
      none
    else
      match rest.dropWhile (fun c => c ≠ ']') with
      | ']' :: '(' :: r2 =>
        let target := r2.takeWhile (fun c => c ≠ ')')
        if target.isEmpty then
          none
        else
          match r2.dropWhile (fun c => c ≠ ')') with
          | ')' :: r4 => some ('[' :: label ++ '|' :: target ++ [']'], r4)
          | _ => none
      | _ => none
  | _ => none

/-- ASCII alphanumeric, the `[a-zA-Z0-9]` class of the username pattern. -/
def isAlnumA (c : Char) : Bool :=
  c.isUpper || c.isLower || c.isDigit

/-- Matcher for `re.sub(r'@([a-zA-Z0-9]+)(\b|_$)', r'[~\1]\2', line)`.
After the maximal alphanumeric run `u` following `@`, the alternation
resolves as follows (regex word characters are alphanumerics and `_`):
at end of input `\b` holds; before `_` at end of input `_$` consumes the
underscore; before `_` not at end both alternatives fail for every
(necessarily shorter) backtracking choice of `u`, so there is no match;
before any other non-word character `\b` holds without consuming it. -/
def tryMention (cs : List Char) : Option (List Char × List Char) :=
  match cs with
  | '@' :: rest =>
    let u := rest.takeWhile isAlnumA
    if u.isEmpty then
      none
    else
      match rest.dropWhile isAlnumA with
      | [] => some ('[' :: '~' :: u ++ [']'], [])
      | '_' :: r2 =>
        if r2.isEmpty then some ('[' :: '~' :: u ++ [']', '_'], []) else none
      | r1 => some ('[' :: '~' :: u ++ [']'], r1)
  | _ => none

/-- Matcher for `re.sub(r'\]\((\/uploads\/[a-z0-9]+\/)', asset_sub, line)`
where `asset_sub = r']({}\1'.format(GL_root_url)`: rewrite a relative
upload path to an absolute URL by inserting the root URL after `](`. -/
def tryAsset (root : List Char) (cs : List Char) : Option (List Char × List Char) :=
  match cs with
  | ']' :: '(' :: rest =>
    if rest.take 9 = "/uploads/".data then
      let r2 := rest.drop 9
      let run := r2.takeWhile (fun c => c.isLower || c.isDigit)
      if run.isEmpty then
        none
      else
        match r2.dropWhile (fun c => c.isLower || c.isDigit) with
        | '/' :: r4 => some (']' :: '(' :: (root ++ "/uploads/".data ++ run ++ ['/']), r4)
        | _ => none
    else
      none
  | _ => none

/-- The Markdown-to-Wiki rewrites of `GLParser.to_JIRA` (lines 77-86),
applied in source order, each operating on the result of the previous:
code-block opener, code-block closer, `:+1:`, `:-1:`, hyperlinks,
usernames. -/
def convLine (cs : List Char) : List Char :=
  let l1 := applySub tryCodeOpen cs
  let l2 := applySub tryCodeClose l1
  let l3 := applySub (tryReplace ":+1:".data "(y)".data) l2
  let l4 := applySub (tryReplace ":-1:".data "(n)".data) l3
  let l5 := applySub tryLink l4
  applySub tryMention l5

/-- Processing of one line of `to_JIRA`: the Markdown rewrites run only
when `preserve_markdown` is false, the asset rewrite (lines 87-88) runs on
both paths, and `print(line, file=output_buf)` appends one terminator. -/
def lineOut (preserve : Bool) (root : List Char) (line : List Char) : List Char :=
  applySub (tryAsset root) (if preserve then line else convLine line) ++ ['\n']

/-- The single-character line terminators of Python's `str.splitlines`
(`\r\n` is handled separately as a two-character terminator). -/
def isLineBreak (c : Char) : Bool :=
  c = '\n' || c = '\r' || c = '\x0b' || c = '\x0c' ||
  c = '\x1c' || c = '\x1d' || c = '\x1e' || c = '\x85' ||
  c = '\u2028' || c = '\u2029'

/-- Worker for `splitlines`: `acc` holds the current line reversed.  A
terminator flushes the line (with `\r` immediately followed by `\n`
consumed as the single two-character terminator `\r\n`); a trailing
terminator produces no extra empty line, matching Python.  Every step
consumes at least one character, so fuel `cs.length` never runs out
before the input does, and the fuel-exhausted branch coincides with the
end-of-input branch. -/
def splitlinesGo : Nat → List Char → List Char → List (List Char)
  | 0, acc, _ => [acc.reverse]
  | fuel + 1, acc, cs =>
    match cs with
    | [] => [acc.reverse]
    | c :: rest =>
      let n := if c = '\r' ∧ rest.head? = some '\n' then rest.tail else rest
      if isLineBreak c then
        acc.reverse :: (if n.isEmpty then [] else splitlinesGo fuel [] n)
      else
        splitlinesGo fuel (c :: acc) rest

/-- Model of Python's `str.splitlines`: the empty string has no lines. -/
def splitlines (cs : List Char) : List (List Char) :=
  if cs.isEmpty then [] else splitlinesGo cs.length [] cs

/-- Core of `GLParser.to_JIRA` (lines 72-92): `None` yields a single empty
line (`print('', file=output_buf)`); otherwise every line of the text is
processed by `lineOut` and the results are concatenated. -/
def toJIRAData (preserve : Bool) (root : List Char) : Option (List Char) → List Char
  | none => ['\n']
  | some cs => ((splitlines cs).map (lineOut preserve root)).flatten

/-- String-level wrapper of `GLParser.to_JIRA`: `preserve` is the
`preserve_markdown` flag and `root` the `GL_root_url` of the parser. -/
def to_JIRA (preserve : Bool) (root : String) (text : Option String) : String :=
  String.mk (toJIRAData preserve root.data (text.map String.data))

theorem scanSub_no_match (t : List Char → Option (List Char × List Char)) :
    ∀ cs : List Char, hasMatchB t cs = false → ∀ fuel, scanSub t fuel cs = cs := by
  intro cs
  induction cs with
  | nil =>
    intro h fuel
    cases fuel with
    | zero => rfl
    | succ n =>
      have ht : t [] = none := by
        cases hteq : t [] with
        | none => rfl
        | some v => rw [hasMatchB, hteq] at h; simp at h
      simp [scanSub, ht]
  | cons c rest ih =>
    intro h fuel
    have ht : t (c :: rest) = none := by
      cases hteq : t (c :: rest) with
      | none => rfl
      | some v => rw [hasMatchB, hteq] at h; simp at h
    have hrest : hasMatchB t rest = false := by
      rw [hasMatchB, ht] at h
      simpa using h
    cases fuel with
    | zero => rfl
    | succ n => simp [scanSub, ht, ih hrest]

theorem applySub_no_match (t : List Char → Option (List Char × List Char))
    (cs : List Char) (h : hasMatchB t cs = false) : applySub t cs = cs :=
  scanSub_no_match t cs h (cs.length + 1)

theorem exists_fresh (reg : List (List Char)) (key : List Char) :
    ∃ i, i < reg.length + 1 ∧ key ++ List.replicate i 'A' ∉ reg := by
  by_contra hcon
  push_neg at hcon
  have hinj : Function.Injective (fun i : Nat => key ++ List.replicate i 'A') := by
    intro a b hab
    have := congrArg List.length hab
    simpa using this
  have hsub : (Finset.range (reg.length + 1)).image (fun i => key ++ List.replicate i 'A')
      ⊆ reg.toFinset := by
    intro x hx
    rw [Finset.mem_image] at hx
    obtain ⟨i, hi, rfl⟩ := hx
    rw [List.mem_toFinset]
    exact hcon i (Finset.mem_range.mp hi)
  have hcard := Finset.card_le_card hsub
  rw [Finset.card_image_of_injective _ hinj, Finset.card_range] at hcard
  have := reg.toFinset_card_le
  omega

theorem resolveLoop_false_spec (reg : List (List Char)) :
    ∀ (fuel : Nat) (key : List Char) (s : Nat),
      (∃ i, i < fuel ∧ key ++ List.replicate i 'A' ∉ reg) →
      resolveLoop reg fuel false s key ∉ reg := by
  intro fuel
  induction fuel with
  | zero =>
    intro key s hex
    obtain ⟨i, hi, _⟩ := hex
    omega
  | succ n ih =>
    intro key s hex
    obtain ⟨i, hi, hfree⟩ := hex
    by_cases hk : key ∈ reg
    · rw [resolveLoop]
      simp only [if_pos hk, Bool.false_eq_true, if_false]
      apply ih
      cases i with
      | zero =>
        rw [List.replicate_zero, List.append_nil] at hfree
        exact absurd hk hfree
      | succ j =>
        refine ⟨j, by omega, ?_⟩
        have hshift : key ++ List.replicate (j + 1) 'A'
            = (key ++ ['A']) ++ List.replicate j 'A' := by
          rw [List.replicate_succ, List.append_assoc]
          rfl
        rwa [hshift] at hfree
    · rw [resolveLoop]
      simpa [if_neg hk] using hk

theorem resolveLoop_not_mem (reg : List (List Char)) (key : List Char) (s : Nat) :
    resolveLoop reg (reg.length + 1) false s key ∉ reg :=
  resolveLoop_false_spec reg (reg.length + 1) key s (exists_fresh reg key)

theorem resolveLoop_shape (reg : List (List Char)) :
    ∀ (fuel : Nat) (key : List Char) (s : Nat),
      ∃ i, resolveLoop reg fuel false s key = key ++ List.replicate i 'A' := by
  intro fuel
  induction fuel with
  | zero =>
    intro key s
    exact ⟨0, by simp [resolveLoop]⟩
  | succ n ih =>
    intro key s
    by_cases hk : key ∈ reg
    · obtain ⟨i, hi⟩ := ih (key ++ ['A']) s
      refine ⟨i + 1, ?_⟩
      rw [resolveLoop]
      simp only [if_pos hk, Bool.false_eq_true, if_false]
      rw [hi, List.replicate_succ, List.append_assoc]
      rfl
    · refine ⟨0, ?_⟩
      rw [resolveLoop]
      simp [if_neg hk]

theorem allocate_fst_not_mem (reg : List (List Char)) (name : List Char) :
    (allocate reg name).1 ∉ reg :=
  resolveLoop_not_mem reg (deriveKey name) 65

theorem allocate_snd_eq (reg : List (List Char)) (name : List Char) :
    (allocate reg name).2 = (allocate reg name).1 :: reg :=
  rfl

theorem allocateAll_spec :
    ∀ (names reg : List (List Char)),
      (allocateAll reg names).1.Nodup ∧
      (∀ k ∈ (allocateAll reg names).1, k ∉ reg) ∧
      (∀ k ∈ (allocateAll reg names).1, k ∈ (allocateAll reg names).2) ∧
      (∀ x ∈ reg, x ∈ (allocateAll reg names).2) := by
  intro names
  induction names with
  | nil =>
    intro reg
    refine ⟨List.nodup_nil, by simp [allocateAll], by simp [allocateAll], ?_⟩
    intro x hx
    simpa [allocateAll] using hx
  | cons n ns ih =>
    intro reg
    obtain ⟨ihnd, ihfresh, ihmem, ihgrow⟩ := ih (allocate reg n).2
    have hkey : (allocate reg n).1 ∉ reg := allocate_fst_not_mem reg n
    have hcons : (allocate reg n).2 = (allocate reg n).1 :: reg := allocate_snd_eq reg n
    refine ⟨?_, ?_, ?_, ?_⟩
    · simp only [allocateAll, List.nodup_cons]
      refine ⟨?_, ihnd⟩
      intro hmem
      have := ihfresh _ hmem
      rw [hcons] at this
      exact this (List.mem_cons_self _ _)
    · intro k hk
      simp only [allocateAll, List.mem_cons] at hk
      rcases hk with rfl | hk
      · exact hkey
      · intro hmem
        have := ihfresh _ hk
        rw [hcons] at this
        exact this (List.mem_cons_of_mem _ hmem)
    · intro k hk
      simp only [allocateAll, List.mem_cons] at hk ⊢
      rcases hk with rfl | hk
      · apply ihgrow
        rw [hcons]
        exact List.mem_cons_self _ _
      · exact ihmem _ hk
    · intro x hx
      simp only [allocateAll]
      apply ihgrow
      rw [hcons]
      exact List.mem_cons_of_mem _ hx

theorem isLower_toNat_bounds (c : Char) (h : c.isLower = true) :
    97 ≤ c.toNat ∧ c.toNat ≤ 122 := by
  simp [Char.isLower, UInt32.le_def, BitVec.le_def, Char.toNat, UInt32.toNat] at h ⊢
  omega

theorem isUpper_toUpper (c : Char) (h : c.isAlpha = true) : c.toUpper.isUpper = true := by
  have key : ∀ m, m < 123 → 97 ≤ m → ((Char.ofNat (m - 32)).isUpper = true) := by decide
  rw [Char.toUpper]
  by_cases hc : 97 ≤ c.toNat ∧ c.toNat ≤ 122
  · simp only [hc, and_self, if_pos]
    exact key c.toNat (by omega) hc.1
  · simp only [if_neg hc]
    simp [Char.isAlpha] at h
    rcases h with h | h
    · exact h
    · exact absurd (isLower_toNat_bounds c h) hc

theorem deriveKey_upper (name : List Char) : ∀ c ∈ deriveKey name, c.isUpper = true := by
  intro c hc
  simp only [deriveKey] at hc
  split at hc <;> split at hc
  all_goals
    first
      | (rw [List.mem_map] at hc
         obtain ⟨d, hd, rfl⟩ := hc
         exact isUpper_toUpper d (List.mem_filter.mp (List.take_subset 2 _ hd)).2)
      | exact (List.mem_filter.mp hc).2

theorem deriveKey_len (name : List Char) (h : 2 ≤ (name.filter Char.isAlpha).length) :
    2 ≤ (deriveKey name).length := by
  simp only [deriveKey]
  split <;> split
  all_goals
    first
      | (rw [List.length_map, List.length_take]; omega)
      | omega

theorem allocate_key_upper (reg : List (List Char)) (name : List Char) :
    ∀ c ∈ (allocate reg name).1, c.isUpper = true := by
  obtain ⟨i, hi⟩ := resolveLoop_shape reg (reg.length + 1) (deriveKey name) 65
  show ∀ c ∈ resolveLoop reg (reg.length + 1) false 65 (deriveKey name), c.isUpper = true
  rw [hi]
  intro c hc
  rcases List.mem_append.mp hc with hc | hc
  · exact deriveKey_upper name c hc
  · rw [List.eq_of_mem_replicate hc]
    decide

theorem allocate_key_len (reg : List (List Char)) (name : List Char)
    (h : 2 ≤ (name.filter Char.isAlpha).length) :
    2 ≤ (allocate reg name).1.length := by
  obtain ⟨i, hi⟩ := resolveLoop_shape reg (reg.length + 1) (deriveKey name) 65
  show 2 ≤ (resolveLoop reg (reg.length + 1) false 65 (deriveKey name)).length
  rw [hi, List.length_append]
  have := deriveKey_len name h
  omega

theorem splitlinesGo_ne_nil : ∀ (fuel : Nat) (acc cs : List Char), splitlinesGo fuel acc cs ≠ [] := by
  intro fuel
  induction fuel with
  | zero => intro acc cs; simp [splitlinesGo]
  | succ n ih =>
    intro acc cs
    cases cs with
    | nil => simp [splitlinesGo]
    | cons c rest =>
      simp only [splitlinesGo]
      split
      · exact List.cons_ne_nil _ _
      · exact ih (c :: acc) rest

theorem flatten_map_ends (f : List Char → List Char)
    (hf : ∀ l, ∃ pre, f l = pre ++ ['\n']) :
    ∀ ls : List (List Char), ls ≠ [] → ∃ pre, (ls.map f).flatten = pre ++ ['\n'] := by
  intro ls
  induction ls with
  | nil => intro h; exact absurd rfl h
  | cons x tl ih =>
    intro _
    cases tl with
    | nil =>
      obtain ⟨pre, hpre⟩ := hf x
      exact ⟨pre, by simpa using hpre⟩
    | cons y tl2 =>
      obtain ⟨pre, hpre⟩ := ih (List.cons_ne_nil y tl2)
      refine ⟨f x ++ pre, ?_⟩
      simp only [List.map_cons, List.flatten_cons] at hpre ⊢
      rw [hpre, List.append_assoc]

theorem getLast?_cons_of_ne_nil {c : Char} {l : List Char} (h : l ≠ []) :
    (c :: l).getLast? = l.getLast? := by
  cases l with
  | nil => exact absurd rfl h
  | cons b t => exact List.getLast?_cons_cons

theorem splitlinesGo_flatten (fuel : Nat) :
    ∀ (acc cs : List Char), cs.length ≤ fuel →
      (∀ c ∈ cs, isLineBreak c = true → c = '\n') →
      cs.getLast? ≠ some '\n' →
      ((splitlinesGo fuel acc cs).map (fun l => l ++ ['\n'])).flatten
        = acc.reverse ++ cs ++ ['\n'] := by
  induction fuel with
  | zero =>
    intro acc cs hlen _ _
    have hnil : cs = [] := List.length_eq_zero.mp (by omega)
    subst hnil
    simp [splitlinesGo]
  | succ n ih =>
    intro acc cs hlen hbr hlast
    cases cs with
    | nil => simp [splitlinesGo]
    | cons c rest =>
      have hlast' : rest.getLast? ≠ some '\n' := by
        cases rest with
        | nil => simp
        | cons r rs =>
          intro hr
          apply hlast
          rw [List.getLast?_cons_cons]
          exact hr
      have hbr' : ∀ d ∈ rest, isLineBreak d = true → d = '\n' :=
        fun d hd => hbr d (List.mem_cons_of_mem c hd)
      have hlen' : rest.length ≤ n := by
        simp only [List.length_cons] at hlen
        omega
      simp only [splitlinesGo]
      by_cases hb : isLineBreak c = true
      · have hc : c = '\n' := hbr c (List.mem_cons_self c rest) hb
        subst hc
        have hcond : ¬('\n' = '\r' ∧ rest.head? = some '\n') := by
          rintro ⟨h1, _⟩
          exact absurd h1 (by decide)
        rw [if_neg hcond, if_pos hb]
        cases rest with
        | nil => simp [List.getLast?] at hlast
        | cons r rs =>
          simp only [List.isEmpty_cons, Bool.false_eq_true, if_false, List.map_cons,
            List.flatten_cons]
          rw [ih [] (r :: rs) hlen' hbr' hlast']
          simp
      · rw [if_neg hb, ih (c :: acc) rest hlen' hbr' hlast']
        simp

theorem lineOut_preserve_no_asset (root l : List Char)
    (h : hasMatchB (tryAsset root) l = false) :
    lineOut true root l = l ++ ['\n'] := by
  simp only [lineOut, if_pos]
  rw [applySub_no_match _ _ h]

theorem lineOut_conv_no_match (root line : List Char)
    (h1 : hasMatchB tryCodeOpen line = false)
    (h2 : hasMatchB tryCodeClose line = false)
    (h3 : hasMatchB (tryReplace ":+1:".data "(y)".data) line = false)
    (h4 : hasMatchB (tryReplace ":-1:".data "(n)".data) line = false)
    (h5 : hasMatchB tryLink line = false)
    (h6 : hasMatchB tryMention line = false)
    (h7 : hasMatchB (tryAsset root) line = false) :
    lineOut false root line = line ++ ['\n'] := by
  have hc : convLine line = line := by
    simp only [convLine]
    rw [applySub_no_match _ _ h1, applySub_no_match _ _ h2, applySub_no_match _ _ h3,
        applySub_no_match _ _ h4, applySub_no_match _ _ h5, applySub_no_match _ _ h6]
  simp only [lineOut, Bool.false_eq_true, if_false]
  rw [hc, applySub_no_match _ _ h7]

theorem string_ext_of_data (a b : String) (h : a.data = b.data) : a = b := by
  cases a
  cases b
  exact congrArg String.mk (by simpa using h)

/-- Claim C1: the spec states that after the first collision appends `A`,
each subsequent collision against the same key replaces the final
character with the next letter (`B`, `C`, ...), so three names reducing
to `AB` should yield `AB`, `ABA`, `ABB`.  The code never sets `added` to
`True`, so the increment branch of the loop is dead and the third
allocation yields `ABAA` instead: this theorem evaluates the code on
three names whose derived candidate key is `AB` in each case. -/
theorem claim_C1_collision_eval :
    (allocateAll [] ["Alpha Beta".data, "Aleph Bet".data, "Arctic Blast".data]).1
      = ["AB".data, "ABA".data, "ABAA".data] ∧
    (allocateAll [] ["Alpha Beta".data, "Aleph Bet".data, "Arctic Blast".data]).1
      ≠ ["AB".data, "ABA".data, "ABB".data] :=
  ⟨by decide, by decide⟩

/-- Claim C2: for every sequence of names allocated against one registry,
the issued keys are pairwise distinct, none of them was already present
in the starting registry, each of them is a member of the final registry
(the key is inserted before being returned: the returned registry is
exactly the key consed onto the old registry), and the registry only ever
grows. -/
theorem claim_C2_registry_uniqueness (names reg : List (List Char)) :
    (allocateAll reg names).1.Nodup ∧
    (∀ k ∈ (allocateAll reg names).1, k ∉ reg) ∧
    (∀ k ∈ (allocateAll reg names).1, k ∈ (allocateAll reg names).2) ∧
    (∀ x ∈ reg, x ∈ (allocateAll reg names).2) ∧
    (∀ n, (allocate reg n).2 = (allocate reg n).1 :: reg) := by
  obtain ⟨a, b, c, d⟩ := allocateAll_spec names reg
  exact ⟨a, b, c, d, fun n => rfl⟩

/-- Claim C3, counterexample: in preserve-source mode the relative
asset-path rewrite of lines 87-88 still runs (it sits outside the
`if not self.preserve_markdown` block), so a text containing
`](/uploads/<hash>/` is not returned unchanged, not even modulo the
trailing line terminator. -/
theorem claim_C3_counterexample :
    to_JIRA true "http://gl" (some "[x](/uploads/abc123/f.png)")
      = "[x](http://gl/uploads/abc123/f.png)\n" ∧
    to_JIRA true "http://gl" (some "[x](/uploads/abc123/f.png)")
      ≠ "[x](/uploads/abc123/f.png)\n" ∧
    to_JIRA true "http://gl" (some "[x](/uploads/abc123/f.png)")
      ≠ "[x](/uploads/abc123/f.png)" :=
  ⟨by decide, by decide, by decide⟩

/-- Claim C3, amended: in preserve-source mode none of the Markdown
rewrites is applied, but the relative-asset-path rewrite still is; for
every nonempty text whose only line terminators are `\n`, which does not
end in a terminator, and whose lines contain no relative-asset-path
reference, `convert(text, true)` returns the text unchanged except for
the appended trailing line terminator. -/
theorem claim_C3_amended (root s : String) (h0 : s ≠ "")
    (h1 : ∀ c ∈ s.data, isLineBreak c = true → c = '\n')
    (h2 : s.data.getLast? ≠ some '\n')
    (h3 : ∀ l ∈ splitlines s.data, hasMatchB (tryAsset root.data) l = false) :
    to_JIRA true root (some s) = s ++ "\n" := by
  have hd : s.data ≠ [] := by
    intro hcon
    apply h0
    exact string_ext_of_data s "" (by rw [hcon])
  have hsplit : splitlines s.data = splitlinesGo s.data.length [] s.data := by
    rw [splitlines, if_neg (by simpa [List.isEmpty_iff] using hd)]
  have hmap : (splitlines s.data).map (lineOut true root.data)
      = (splitlines s.data).map (fun l => l ++ ['\n']) := by
    apply List.map_congr_left
    intro l hl
    exact lineOut_preserve_no_asset root.data l (h3 l hl)
  apply string_ext_of_data
  calc (to_JIRA true root (some s)).data
      = ((splitlines s.data).map (lineOut true root.data)).flatten := rfl
    _ = ((splitlines s.data).map (fun l => l ++ ['\n'])).flatten := by rw [hmap]
    _ = [].reverse ++ s.data ++ ['\n'] := by
        rw [hsplit]
        exact splitlinesGo_flatten s.data.length [] s.data le_rfl h1 h2
    _ = (s ++ "\n").data := by simp

/-- Witness for the amended claim C3: a concrete text containing Markdown
tokens but no asset reference passes through preserve mode untouched
except for the trailing terminator. -/
theorem claim_C3_amended_witness :
    to_JIRA true "http://gl" (some "Hello :+1: @bob") = "Hello :+1: @bob" ++ "\n" :=
  claim_C3_amended "http://gl" "Hello :+1: @bob" (by decide) (by decide) (by decide) (by decide)

/-- Claim C4: every allocated key consists only of uppercase ASCII
letters, and when the project name contains at least two alphabetic
characters the key has length at least two (the unbounded-suffix edge
case of the spec never occurs in the code, whose collision loop only
appends uppercase `A`). -/
theorem claim_C4_key_shape (reg : List (List Char)) (name : List Char) :
    (∀ c ∈ (allocate reg name).1, c.isUpper = true) ∧
    (2 ≤ (name.filter Char.isAlpha).length → 2 ≤ (allocate reg name).1.length) :=
  ⟨allocate_key_upper reg name, allocate_key_len reg name⟩

/-- Witness for claim C4 at a concrete input with at least two letters. -/
theorem claim_C4_witness :
    2 ≤ ("Foo Bar".data.filter Char.isAlpha).length ∧
    2 ≤ (allocate [] "Foo Bar".data).1.length :=
  ⟨by decide, (claim_C4_key_shape [] "Foo Bar".data).2 (by decide)⟩

/-- Claim C5: on an empty registry, `allocate("Foo Bar")` returns `FB`
(the uppercase letters of the name in order), and `allocate("foobar")`
title-cases to `Foobar`, extracts the single uppercase letter `F`, falls
below the length-2 threshold and falls back to the first two letters of
the original name uppercased, returning `FO`; the theorem also records
the intermediate steps. -/
theorem claim_C5_empty_registry_examples :
    allocate [] "Foo Bar".data = ("FB".data, ["FB".data]) ∧
    allocate [] "foobar".data = ("FO".data, ["FO".data]) ∧
    pyIslower "foobar".data = true ∧
    pyTitle "foobar".data = "Foobar".data ∧
    "Foobar".data.filter Char.isUpper = "F".data ∧
    pyIslower "Foo Bar".data = false ∧
    "Foo Bar".data.filter Char.isUpper = "FB".data := by
  decide

/-- Claim C6: for either value of the preserve flag (and any root URL),
converting null text returns exactly one empty line: a single line
terminator with no content. -/
theorem claim_C6_null_text (p : Bool) (root : String) : to_JIRA p root none = "\n" :=
  rfl

/-- Claim C7: with conversion enabled the stated rewrites are applied in
order, each operating on the result of the previous: the spec's two
examples, plus the code-block opener and closer rewrites. -/
theorem claim_C7_pipeline_examples :
    to_JIRA false "http://gitlab.example.com" (some "Hello :+1: @bob")
      = "Hello (y) [~bob]\n" ∧
    to_JIRA false "http://gitlab.example.com" (some "See [docs](http://x)")
      = "See [docs|http://x]\n" ∧
    to_JIRA false "http://gitlab.example.com" (some "```python")
      = "\x7bcode:python\x7d\n" ∧
    to_JIRA false "http://gitlab.example.com" (some "```")
      = "\x7bcode\x7d\n" :=
  ⟨by decide, by decide, by decide, by decide⟩

/-- Claim C8, counterexample: for the empty (non-null) string the
line-processing loop runs zero times, so the result is the empty string,
which does not end with a line terminator. -/
theorem claim_C8_counterexample :
    to_JIRA false "http://gl" (some "") = "" ∧
    ∀ pre : List Char, (to_JIRA false "http://gl" (some "")).data ≠ pre ++ ['\n'] := by
  refine ⟨by decide, ?_⟩
  intro pre h
  have hh : ([] : List Char) = pre ++ ['\n'] := h
  simpa using hh.symm

/-- Claim C8, amended: for null text, and for every nonempty text, the
result of `convert` ends with a trailing line terminator; only the empty
(non-null) string yields a result (the empty string) with no terminator. -/
theorem claim_C8_amended (p : Bool) (root : String) (t : Option String)
    (h : t = none ∨ ∃ s, t = some s ∧ s ≠ "") :
    ∃ pre, (to_JIRA p root t).data = pre ++ ['\n'] := by
  rcases h with rfl | ⟨s, rfl, hs⟩
  · exact ⟨[], rfl⟩
  · have hd : s.data ≠ [] := by
      intro hcon
      apply hs
      exact string_ext_of_data s "" (by rw [hcon])
    show ∃ pre, ((splitlines s.data).map (lineOut p root.data)).flatten = pre ++ ['\n']
    apply flatten_map_ends
    · intro l
      exact ⟨applySub (tryAsset root.data) (if p then l else convLine l), rfl⟩
    · rw [splitlines, if_neg (by simpa [List.isEmpty_iff] using hd)]
      exact splitlinesGo_ne_nil _ _ _

/-- Witness for the amended claim C8 at a concrete nonempty text. -/
theorem claim_C8_amended_witness :
    ∃ pre, (to_JIRA false "http://gl" (some "a")).data = pre ++ ['\n'] :=
  claim_C8_amended false "http://gl" (some "a") (Or.inr ⟨"a", rfl, by decide⟩)

/-- Claim C9: both functions are total and never raise.  A line on which
no rewrite pattern matches passes through the whole conversion pipeline
unchanged (up to the appended terminator), and `allocate` produces a
(possibly degenerate, shorter than two characters) key even for names
with zero or one alphabetic character. -/
theorem claim_C9_totality (root line : List Char)
    (h1 : hasMatchB tryCodeOpen line = false)
    (h2 : hasMatchB tryCodeClose line = false)
    (h3 : hasMatchB (tryReplace ":+1:".data "(y)".data) line = false)
    (h4 : hasMatchB (tryReplace ":-1:".data "(n)".data) line = false)
    (h5 : hasMatchB tryLink line = false)
    (h6 : hasMatchB tryMention line = false)
    (h7 : hasMatchB (tryAsset root) line = false) :
    lineOut false root line = line ++ ['\n'] ∧
    (allocate [] "".data).1 = [] ∧
    (allocate [] "x".data).1 = "X".data ∧
    (allocate [] "x".data).2 = ["X".data] :=
  ⟨lineOut_conv_no_match root line h1 h2 h3 h4 h5 h6 h7, by decide, by decide, by decide⟩

/-- Witness for claim C9 at a concrete line matching no rewrite. -/
theorem claim_C9_witness :
    lineOut false "http://gl".data "hello".data = "hello".data ++ ['\n'] ∧
    (allocate [] "".data).1 = [] ∧
    (allocate [] "x".data).1 = "X".data ∧
    (allocate [] "x".data).2 = ["X".data] :=
  claim_C9_totality "http://gl".data "hello".data (by decide) (by decide) (by decide)
    (by decide) (by decide) (by decide) (by decide)

/-- Claim C10: the username pattern requires no word boundary before the
`@`, so email-like text is mangled: the domain part of `a@b.com` becomes
user-reference syntax. -/
theorem claim_C10_email_mention :
    to_JIRA false "http://gitlab.example.com" (some "a@b.com") = "a[~b].com\n" ∧
    to_JIRA false "http://gitlab.example.com" (some "a@b.com") ≠ "a@b.com\n" :=
  ⟨by decide, by decide⟩
